import Mathlib

/-!
Verification of the image-collage application (`src/app.py`) against its
natural-language specification.  The Python source is shallowly embedded:
pure helper functions become Lean functions over `List Char` / `String`,
the arbitrary-precision non-negative integers of Python become `Nat`, and
the run-time `TypeError` raised when Python compares an `int` with a `str`
is modelled by an `Option`-valued comparison that returns `none`.
-/

set_option autoImplicit false

namespace CollageApp

/-- One element of the heterogeneous list returned by `alphanumeric_key`
(app.py:11-18): Python puts either an `int` (a parsed digit run) or a
lowercased `str` into the key list. -/
inductive Segment where
  | num : Nat → Segment
  | str : String → Segment
deriving DecidableEq, Repr

/-- Codepoint-wise lexicographic comparison of character lists; this is how
Python 3 compares two `str` values. -/
def strCmp : List Char → List Char → Ordering
  | [], [] => Ordering.eq
  | [], _ :: _ => Ordering.lt
  | _ :: _, [] => Ordering.gt
  | a :: as, b :: bs =>
    if a.val < b.val then Ordering.lt
    else if b.val < a.val then Ordering.gt
    else strCmp as bs

/-- Comparison of two key elements, as Python performs it while comparing key
lists.  `int` vs `int` compares by value, `str` vs `str` by codepoints, and a
mixed `int` vs `str` pair raises `TypeError` — modelled by `none`.  (In Python,
`==` between an `int` and a `str` is `False`, so a reached mixed pair always
ends in the `TypeError` of the subsequent `<`.) -/
def segCmp : Segment → Segment → Option Ordering
  | Segment.num a, Segment.num b => some (compare a b)
  | Segment.str a, Segment.str b => some (strCmp a.data b.data)
  | _, _ => none

/-- The Python lexicographic comparison of two key lists (`list.__lt__` and
friends, as invoked by `list.sort(key=alphanumeric_key)` at app.py:111):
scan for the first position where the elements differ, answer with the
comparison of that pair, and `TypeError` (`none`) when the pair mixes `int`
and `str`; a strict prefix sorts first. -/
def keyCmp : List Segment → List Segment → Option Ordering
  | [], [] => some Ordering.eq
  | [], _ :: _ => some Ordering.lt
  | _ :: _, [] => some Ordering.gt
  | a :: as, b :: bs =>
    match segCmp a b with
    | some Ordering.eq => keyCmp as bs
    | r => r

/-- The Python `str.rfind` specialised to a single character: the greatest
index holding `c`, and `-1` when `c` does not occur. -/
def pyRfind : List Char → Char → Int
  | [], _ => -1
  | x :: xs, c =>
    let r := pyRfind xs c
    if r ≥ 0 then r + 1
    else if x = c then 0 else -1

/-- `os.path.splitext` (posix flavour, as called at app.py:16): split off the
extension beginning at the last dot of the final path component, unless the
final component consists only of leading dots up to that point. -/
def splitext (p : String) : String × String :=
  let cs := p.data
  let sepIndex := pyRfind cs '/'
  let dotIndex := pyRfind cs '.'
  if sepIndex < dotIndex then
    let fIdx := (sepIndex + 1).toNat
    let dIdx := dotIndex.toNat
    if ((cs.drop fIdx).take (dIdx - fIdx)).any (fun ch => ch ≠ '.') then
      (String.mk (cs.take dIdx), String.mk (cs.drop dIdx))
    else (p, "")
  else (p, "")

/-- The Python `str.lower` (the filenames handled here are ASCII;
`Char.toLower` agrees with Python on ASCII). -/
def pyLower (s : String) : String := String.mk (s.data.map Char.toLower)

/-- The Python `str.isdigit`: non-empty and all characters decimal digits
(ASCII range, matching the digit runs produced by the split). -/
def pyIsDigit (s : String) : Bool := !s.data.isEmpty && s.data.all Char.isDigit

/-- The Python `int(...)` on a string of decimal digits (arbitrary precision,
hence `Nat`). -/
def pyInt (s : String) : Nat := s.data.foldl (fun acc c => acc * 10 + (c.toNat - '0'.toNat)) 0

/-- Fuelled worker for the `re.split` on the captured digit-run pattern at
app.py:17: peel off one maximal non-digit run and one maximal digit run per
step.  Each recursive call consumes the non-empty digit run, so
`fuel = length + 1` always suffices and the `0` branch is unreachable from
`reSplitDigits`. -/
def reSplitAux : Nat → List Char → List String
  | 0, _ => []
  | fuel + 1, cs =>
    match cs.dropWhile (fun c => !c.isDigit) with
    | [] => [String.mk (cs.takeWhile (fun c => !c.isDigit))]
    | d :: tl =>
      String.mk (cs.takeWhile (fun c => !c.isDigit)) ::
        String.mk ((d :: tl).takeWhile Char.isDigit) ::
          reSplitAux fuel ((d :: tl).dropWhile Char.isDigit)

/-- The `re.split` of app.py:17 with the digit run as a capture group: the
alternating list of (possibly empty) non-digit runs and captured maximal
digit runs, beginning and ending with a non-digit run. -/
def reSplitDigits (cs : List Char) : List String := reSplitAux (cs.length + 1) cs

/-- The comprehension body `int(p) if p.isdigit() else p.lower()` of
app.py:18. -/
def tagPart (p : String) : Segment :=
  if pyIsDigit p then Segment.num (pyInt p) else Segment.str (pyLower p)

/-- `alphanumeric_key` (app.py:11-18): split base from extension, split the
base on maximal digit runs, turn digit runs into `int`s and everything else
into lowercased `str`s, and append the lowercased extension. -/
def alphanumeric_key (filename : String) : List Segment :=
  (reSplitDigits (splitext filename).1.data).map tagPart
    ++ [Segment.str (pyLower (splitext filename).2)]

/-- Fuelled worker for the generator `chunker` (app.py:20-23).  The Python
loop `for pos in range(0, len(seq), size)` with `size ≥ 1` yields the slices
`seq[pos:pos+size]`; each step consumes `size ≥ 1` elements, so
`fuel = seq.length` suffices and the `0` branch is unreachable from `chunker`
for non-degenerate inputs.  The `(_ :: _, 0)` branch models the *negative*
step case, where `range(0, n, step)` is empty and the generator yields
nothing (a step of exactly `0` raises `ValueError` and is handled by the
caller model `buildDocument` before chunking). -/
def chunkerFuel {α : Type} : Nat → List α → Nat → List (List α)
  | _, [], _ => []
  | _, _ :: _, 0 => []
  | 0, _ :: _, _ + 1 => []
  | fuel + 1, a :: rest, size + 1 =>
    (a :: rest).take (size + 1) :: chunkerFuel fuel ((a :: rest).drop (size + 1)) (size + 1)

/-- `chunker(seq, size)` (app.py:20-23): successive slices of length `size`
(last one possibly shorter). -/
def chunker {α : Type} (seq : List α) (size : Nat) : List (List α) :=
  chunkerFuel seq.length seq size

/-- Downward scan computing the least `c ≤ m` with `n ≤ c * c`, assuming
`n ≤ m * m` at the call. -/
def ceilSqrtAux (n : Nat) : Nat → Nat
  | 0 => 0
  | c + 1 => if n ≤ c * c then ceilSqrtAux n c else c + 1

/-- Exact model of `int(math.ceil(math.sqrt(n)))` (app.py:144).  For every
chunk size reachable in the app (`n ≤ 25`, the widget bound at app.py:79-85)
the double-precision `math.sqrt`/`math.ceil` path is exact, and it equals the
least natural `c` with `n ≤ c²` — which is what this computes
(theorem `ceilSqrt_eq_ceil_real_sqrt` below identifies it with `⌈√n⌉₊`). -/
def ceilSqrt (n : Nat) : Nat := ceilSqrtAux n n

/-- `cols = int(math.ceil(math.sqrt(n_in_this_chunk)))` (app.py:144). -/
def gridCols (n : Nat) : Nat := ceilSqrt n

/-- `rows = int(math.ceil(n_in_this_chunk / cols))` (app.py:145): ceiling
division, exact for the `int / int` true division performed there. -/
def gridRows (n : Nat) : Nat := (n + gridCols n - 1) / gridCols n

/-- Pixel dimensions of one decoded image (`img.width`, `img.height`). -/
structure Dim where
  width : Nat
  height : Nat
deriving DecidableEq, Repr

/-- The Python `max(...)` over a generator of naturals.  `max` of an empty
sequence raises `ValueError`; it is only ever applied to non-empty chunks
(app.py:148-149), and the `[]` branch is a dead default. -/
def pyMax : List Nat → Nat
  | [] => 0
  | x :: xs => xs.foldl max x

/-- Everything the collage loop (app.py:140-164) computes for one chunk:
grid shape, cell size (the chunk maxima), canvas size, and the row-major
paste offset of every image. -/
structure PagePlan where
  cols : Nat
  rows : Nat
  cellW : Nat
  cellH : Nat
  canvasW : Nat
  canvasH : Nat
  offsets : List (Nat × Nat)
deriving DecidableEq, Repr

/-- The per-chunk layout computation of app.py:140-162: `cols`/`rows` from the
chunk size, `max_width`/`max_height` over the chunk, the collage canvas of
`cols*max_width × rows*max_height`, and for the `i`-th image
`row = i // cols`, `col = i % cols`, offset `(col*max_width, row*max_height)`. -/
def planChunk (chunk : List Dim) : PagePlan :=
  let n := chunk.length
  let cols := gridCols n
  let mw := pyMax (chunk.map Dim.width)
  let mh := pyMax (chunk.map Dim.height)
  ⟨cols, gridRows n, mw, mh, cols * mw, gridRows n * mh,
    (List.range n).map (fun i => ((i % cols) * mw, (i / cols) * mh))⟩

/-- `valid_extensions` (app.py:99). -/
def valid_extensions : List String :=
  [".jpg", ".jpeg", ".png", ".bmp", ".gif", ".tiff"]

/-- The Python `str.endswith`. -/
def pyEndsWith (s suf : String) : Bool := suf.data.isSuffixOf s.data

/-- The filename filter `f.lower().endswith(valid_extensions)` (app.py:105-108):
`endswith` with a tuple succeeds when any listed suffix matches. -/
def isValidImage (f : String) : Bool :=
  valid_extensions.any fun e => pyEndsWith (pyLower f) e

/-- The distinct ways the build of app.py:96-185 stops without handing a PDF
to the download button:
`typeError` — `list.sort(key=alphanumeric_key)` compared an `int` with a `str`
  (uncaught exception);
`emptyInput` — `st.warning("No valid image files found in the ZIP."); return`
  (app.py:120-122);
`valueError` — `range(0, n, 0)` inside the chunk loop, capacity exactly `0`
  (uncaught exception);
`noPages` — `st.warning("No collage pages were created.")` (app.py:185),
  reached when the chunk loop yielded nothing. -/
inductive BuildError where
  | typeError
  | emptyInput
  | valueError
  | noPages
deriving DecidableEq, Repr

/-- Stable keyed insertion: `x` goes in front of the first resident whose key
is not smaller, and `none` propagates a `TypeError` from any key comparison. -/
def insertKeyed (x : String) : List String → Option (List String)
  | [] => some [x]
  | y :: ys =>
    match keyCmp (alphanumeric_key y) (alphanumeric_key x) with
    | none => none
    | some Ordering.lt =>
      match insertKeyed x ys with
      | none => none
      | some zs => some (y :: zs)
    | some _ => some (x :: y :: ys)

/-- Model of `image_files.sort(key=alphanumeric_key)` (app.py:111) as a stable
insertion sort over the key order; a mixed-tag key comparison is a `TypeError`
(`none`).  (The CPython Timsort performs a different set of comparisons, so the
*exact* crash condition of Timsort is not modelled — only that comparisons go
through `keyCmp`.) -/
def insertSortByKey : List String → Option (List String)
  | [] => some []
  | x :: xs =>
    match insertSortByKey xs with
    | none => none
    | some ys => insertKeyed x ys

/-- The document-building pipeline of `main` (app.py:96-185), for an archive
whose entry list is `allFiles` and whose decoded images have the dimensions
`dim` assigns to their names: filter by extension, natural-sort, stop with a
warning when nothing qualifies, chunk by `capacity` and lay every chunk out as
one collage page.  `capacity` is an `Int` because the spec discusses values
below `1`; the UI widget (app.py:79-85) only ever passes `1..25`.  A negative
capacity makes `range(0, n, capacity)` empty (`capacity.toNat = 0`, and
`chunker _ 0 = []`), so the loop yields nothing and the build ends in the
"No collage pages were created." warning. -/
def buildDocument (allFiles : List String) (dim : String → Dim) (capacity : Int) :
    Except BuildError (List PagePlan) :=
  match insertSortByKey (allFiles.filter isValidImage) with
  | none => Except.error BuildError.typeError
  | some sorted =>
    if sorted.isEmpty then Except.error BuildError.emptyInput
    else if capacity = 0 then Except.error BuildError.valueError
    else if ((chunker (sorted.map dim) capacity.toNat).map planChunk).isEmpty then
      Except.error BuildError.noPages
    else Except.ok ((chunker (sorted.map dim) capacity.toNat).map planChunk)

/-- A degenerate dimension assignment used for concrete instantiations. -/
def unitDim : String → Dim := fun _ => ⟨1, 1⟩

/-- `true` exactly on `Text` segments. -/
def isStrSeg : Segment → Bool
  | Segment.num _ => false
  | Segment.str _ => true

/-! ## Helper lemmas -/

theorem strCmp_self : ∀ cs : List Char, strCmp cs cs = Ordering.eq
  | [] => rfl
  | a :: as => by simp [strCmp, strCmp_self as]

theorem segCmp_self (a : Segment) : segCmp a a = some Ordering.eq := by
  cases a with
  | num n => simp [segCmp, Nat.compare_eq_eq]
  | str s => simp [segCmp, strCmp_self]

theorem keyCmp_append_left (p l1 l2 : List Segment) :
    keyCmp (p ++ l1) (p ++ l2) = keyCmp l1 l2 := by
  induction p with
  | nil => rfl
  | cons a p ih => simp [keyCmp, segCmp_self, ih]

/-! ## C1: mixed-tag comparison -/

/-- C1, counterexample: comparing the keys of `"a.png"` and `"a1.png"` does
not fall back to a string comparison — it is a `TypeError` (`none`), in both
directions, so sorting a list containing these two filenames crashes. -/
theorem C1_counterexample :
    keyCmp (alphanumeric_key "a.png") (alphanumeric_key "a1.png") = none ∧
    keyCmp (alphanumeric_key "a1.png") (alphanumeric_key "a.png") = none := by decide

/-- C1 (amended): whenever two sort keys agree up to some position and hold
segments of different tags there (one `Number`, one `Text`), the comparison
raises `TypeError` (modelled as `none`) instead of falling back to string
representations; the key order is therefore not total and sorting such
filename pairs crashes. -/
theorem C1_mixed_tag_raises (p r1 r2 : List Segment) (n : Nat) (s : String) :
    keyCmp (p ++ Segment.num n :: r1) (p ++ Segment.str s :: r2) = none ∧
    keyCmp (p ++ Segment.str s :: r1) (p ++ Segment.num n :: r2) = none := by
  constructor <;> rw [keyCmp_append_left] <;> simp [keyCmp, segCmp]

/-! ## C2: numeric segments compare by value -/

/-- C2: when two keys agree on a common prefix and then hold `Number`
segments `m < n`, the key comparison answers `lt` — numeric runs compare by
value, not by digit-string length — and concretely the key of `"img2.png"`
compares below the key of `"img10.png"`, so the sort puts `"img2.png"`
first. -/
theorem C2_numeric_by_value (p r1 r2 : List Segment) (m n : Nat) (h : m < n) :
    keyCmp (p ++ Segment.num m :: r1) (p ++ Segment.num n :: r2) = some Ordering.lt ∧
    keyCmp (alphanumeric_key "img2.png") (alphanumeric_key "img10.png") =
      some Ordering.lt := by
  constructor
  · rw [keyCmp_append_left]
    simp [keyCmp, segCmp, Nat.compare_eq_lt.mpr h]
  · decide

/-- Witness for C2 at the concrete pair from the spec. -/
theorem C2_witness :
    2 < 10 ∧
    (keyCmp ([Segment.str "img"] ++ Segment.num 2 :: [Segment.str "", Segment.str ".png"])
        ([Segment.str "img"] ++ Segment.num 10 :: [Segment.str "", Segment.str ".png"]) =
      some Ordering.lt ∧
     keyCmp (alphanumeric_key "img2.png") (alphanumeric_key "img10.png") =
      some Ordering.lt) :=
  ⟨by decide,
   C2_numeric_by_value [Segment.str "img"] [Segment.str "", Segment.str ".png"]
     [Segment.str "", Segment.str ".png"] 2 10 (by decide)⟩

/-! ## C9: the empty filename -/

/-- C9, counterexample: the key of the empty string is NOT a single empty
`Text` segment — it has two segments (the empty base run plus the empty
extension segment). -/
theorem C9_counterexample :
    alphanumeric_key "" ≠ [Segment.str ""] ∧
    (alphanumeric_key "").length = 2 := by decide

/-- C9 (amended): the key function accepts any string (it always yields a
non-empty segment list), and the empty string yields exactly two empty `Text`
segments: the single empty base segment followed by the empty extension
segment. -/
theorem C9_empty_string_key :
    (∀ s : String, alphanumeric_key s ≠ []) ∧
    alphanumeric_key "" = [Segment.str "", Segment.str ""] := by
  constructor
  · intro s
    simp [alphanumeric_key]
  · decide

/-! ## Grid planner arithmetic -/

theorem ceilSqrtAux_spec (n : Nat) :
    ∀ m, n ≤ m * m →
      n ≤ ceilSqrtAux n m * ceilSqrtAux n m ∧
      (ceilSqrtAux n m = 0 ∨ (ceilSqrtAux n m - 1) * (ceilSqrtAux n m - 1) < n) := by
  intro m
  induction m with
  | zero => intro h; exact ⟨h, Or.inl rfl⟩
  | succ c ih =>
    intro h
    by_cases hc : n ≤ c * c
    · simpa [ceilSqrtAux, hc] using ih hc
    · refine ⟨by simpa [ceilSqrtAux, hc] using h, Or.inr ?_⟩
      simp [ceilSqrtAux, hc]
      omega

theorem ceilSqrt_spec (n : Nat) :
    n ≤ ceilSqrt n * ceilSqrt n ∧
    (ceilSqrt n = 0 ∨ (ceilSqrt n - 1) * (ceilSqrt n - 1) < n) := by
  have hn : n ≤ n * n := by
    cases n with
    | zero => exact Nat.le_refl 0
    | succ k => exact Nat.le_mul_of_pos_left _ (Nat.succ_pos k)
  exact ceilSqrtAux_spec n n hn

theorem ceilSqrt_le_of_le_sq (n k : Nat) (h : n ≤ k * k) : ceilSqrt n ≤ k := by
  by_contra hlt
  push_neg at hlt
  obtain ⟨hsq, h2⟩ := ceilSqrt_spec n
  rcases h2 with h0 | h2
  · omega
  · have hk : k ≤ ceilSqrt n - 1 := by omega
    have : k * k ≤ (ceilSqrt n - 1) * (ceilSqrt n - 1) := Nat.mul_le_mul hk hk
    omega

/-- The executable `ceilSqrt` is exactly the ceiling of the real square root,
i.e. the value `int(math.ceil(math.sqrt(n)))` computes. -/
theorem ceilSqrt_eq_ceil_real_sqrt (n : Nat) : ceilSqrt n = ⌈Real.sqrt n⌉₊ := by
  obtain ⟨h1, _⟩ := ceilSqrt_spec n
  apply le_antisymm
  · apply ceilSqrt_le_of_le_sq
    have hle : Real.sqrt n ≤ (⌈Real.sqrt n⌉₊ : ℝ) := Nat.le_ceil _
    have hs : Real.sqrt n * Real.sqrt n = (n : ℝ) :=
      Real.mul_self_sqrt (by positivity)
    have h2 : (n : ℝ) ≤ (⌈Real.sqrt n⌉₊ : ℝ) * (⌈Real.sqrt n⌉₊ : ℝ) := by
      nlinarith [Real.sqrt_nonneg (n : ℝ)]
    exact_mod_cast h2
  · rw [Nat.ceil_le]
    have hcast : (n : ℝ) ≤ ((ceilSqrt n : Nat) : ℝ) * ((ceilSqrt n : Nat) : ℝ) := by
      exact_mod_cast h1
    calc Real.sqrt n
        ≤ Real.sqrt (((ceilSqrt n : Nat) : ℝ) * ((ceilSqrt n : Nat) : ℝ)) :=
          Real.sqrt_le_sqrt hcast
      _ = ((ceilSqrt n : Nat) : ℝ) := Real.sqrt_mul_self (by positivity)

theorem gridCols_pos (n : Nat) (h : 1 ≤ n) : 0 < gridCols n := by
  obtain ⟨h1, _⟩ := ceilSqrt_spec n
  unfold gridCols
  by_contra h0
  push_neg at h0
  interval_cases hc : ceilSqrt n
  omega

/-- Ceiling division over `Nat` agrees with the real ceiling of the true
division `n / c`, i.e. the value `int(math.ceil(n / cols))` computes. -/
theorem ceil_div_eq_ceil_real_div (n c : Nat) (hc : 0 < c) :
    (n + c - 1) / c = ⌈(n : ℝ) / (c : ℝ)⌉₊ := by
  have hcR : (0 : ℝ) < (c : ℝ) := by exact_mod_cast hc
  apply le_antisymm
  · have h1 : (n : ℝ) / (c : ℝ) ≤ (⌈(n : ℝ) / (c : ℝ)⌉₊ : ℝ) := Nat.le_ceil _
    have h2 : (n : ℝ) ≤ (⌈(n : ℝ) / (c : ℝ)⌉₊ : ℝ) * (c : ℝ) := by
      rwa [div_le_iff₀ hcR] at h1
    have h3 : n ≤ ⌈(n : ℝ) / (c : ℝ)⌉₊ * c := by exact_mod_cast h2
    have h4 : (n + c - 1) / c < ⌈(n : ℝ) / (c : ℝ)⌉₊ + 1 := by
      rw [Nat.div_lt_iff_lt_mul hc]
      calc n + c - 1 ≤ ⌈(n : ℝ) / (c : ℝ)⌉₊ * c + (c - 1) := by omega
        _ < ⌈(n : ℝ) / (c : ℝ)⌉₊ * c + c := by omega
        _ = (⌈(n : ℝ) / (c : ℝ)⌉₊ + 1) * c := by ring
    omega
  · rw [Nat.ceil_le, div_le_iff₀ hcR]
    have hd := Nat.div_add_mod (n + c - 1) c
    have hm : (n + c - 1) % c < c := Nat.mod_lt _ hc
    have hn : n ≤ (n + c - 1) / c * c := by
      have h5 : c * ((n + c - 1) / c) + (c - 1) ≥ n + c - 1 := by omega
      have h6 : c * ((n + c - 1) / c) = (n + c - 1) / c * c := Nat.mul_comm _ _
      omega
    exact_mod_cast hn

/-! ## C3: grid shape -/

/-- C3: for a chunk of size `n` with `1 ≤ n ≤ capacity`, the planner computes
`columns = ⌈√n⌉` and `rows = ⌈n / columns⌉`; concretely `n = 1` gives a `1×1`
grid, `n = 4` gives `2×2`, `n = 5` gives `3` columns and `2` rows, and
`n = 9` gives `3×3`. -/
theorem C3_grid_shape (n capacity : Nat) (h1 : 1 ≤ n) (_h2 : n ≤ capacity) :
    gridCols n = ⌈Real.sqrt n⌉₊ ∧
    gridRows n = ⌈(n : ℝ) / (gridCols n : ℝ)⌉₊ ∧
    (gridCols 1 = 1 ∧ gridRows 1 = 1) ∧
    (gridCols 4 = 2 ∧ gridRows 4 = 2) ∧
    (gridCols 5 = 3 ∧ gridRows 5 = 2) ∧
    (gridCols 9 = 3 ∧ gridRows 9 = 3) := by
  refine ⟨ceilSqrt_eq_ceil_real_sqrt n, ?_, by decide, by decide, by decide, by decide⟩
  have hc : 0 < gridCols n := gridCols_pos n h1
  unfold gridRows
  exact ceil_div_eq_ceil_real_div n (gridCols n) hc

/-- Witness for C3 at `n = 5`, `capacity = 25`. -/
theorem C3_witness :
    gridCols 5 = ⌈Real.sqrt (5 : Nat)⌉₊ ∧
    gridRows 5 = ⌈((5 : Nat) : ℝ) / (gridCols 5 : ℝ)⌉₊ ∧
    (gridCols 1 = 1 ∧ gridRows 1 = 1) ∧
    (gridCols 4 = 2 ∧ gridRows 4 = 2) ∧
    (gridCols 5 = 3 ∧ gridRows 5 = 2) ∧
    (gridCols 9 = 3 ∧ gridRows 9 = 3) :=
  C3_grid_shape 5 25 (by decide) (by decide)

/-! ## C4: the grid is the smallest near-square rectangle -/

/-- C4: for every chunk size `n ≥ 1` the grid shape satisfies
`C×R ≥ n` and `n ≥ C×(R−1)+1` — the chunk fits, and the last row is never
empty. -/
theorem C4_grid_invariant (n : Nat) (h : 1 ≤ n) :
    n ≤ gridCols n * gridRows n ∧ gridCols n * (gridRows n - 1) + 1 ≤ n := by
  have hc : 0 < gridCols n := gridCols_pos n h
  have hrw : gridRows n = (n - 1) / gridCols n + 1 := by
    unfold gridRows
    have he : n + gridCols n - 1 = (n - 1) + gridCols n := by omega
    rw [he, Nat.add_div_right _ hc]
  constructor
  · rw [hrw]
    have hd := Nat.div_add_mod (n - 1) (gridCols n)
    have hm : (n - 1) % gridCols n < gridCols n := Nat.mod_lt _ hc
    have hmul : gridCols n * ((n - 1) / gridCols n + 1) =
        gridCols n * ((n - 1) / gridCols n) + gridCols n := by ring
    rw [hmul]
    generalize hP : gridCols n * ((n - 1) / gridCols n) = P at hd ⊢
    omega
  · rw [hrw]
    rw [Nat.add_sub_cancel]
    have h2 : (n - 1) / gridCols n * gridCols n ≤ n - 1 := Nat.div_mul_le_self _ _
    rw [Nat.mul_comm]
    generalize hP : (n - 1) / gridCols n * gridCols n = P at h2 ⊢
    omega

/-- Witness for C4 at `n = 7` (a `3×3` grid holding seven images). -/
theorem C4_witness :
    7 ≤ gridCols 7 * gridRows 7 ∧ gridCols 7 * (gridRows 7 - 1) + 1 ≤ 7 :=
  C4_grid_invariant 7 (by decide)

/-! ## Chunker lemmas -/

theorem chunkerFuel_nil {α : Type} (fuel size : Nat) :
    chunkerFuel fuel ([] : List α) size = [] := by
  cases fuel <;> cases size <;> rfl

theorem chunkerFuel_cons {α : Type} (fuel s : Nat) (a : α) (rest : List α) :
    chunkerFuel (fuel + 1) (a :: rest) (s + 1) =
      List.take (s + 1) (a :: rest) ::
        chunkerFuel fuel (List.drop (s + 1) (a :: rest)) (s + 1) := rfl

theorem chunkerFuel_flatten {α : Type} :
    ∀ (fuel : Nat) (l : List α) (s : Nat), l.length ≤ fuel →
      (chunkerFuel fuel l (s + 1)).flatten = l := by
  intro fuel
  induction fuel with
  | zero =>
    intro l s h
    have hl : l = [] := List.eq_nil_of_length_eq_zero (by omega)
    subst hl
    rfl
  | succ fuel ih =>
    intro l s h
    cases l with
    | nil => rfl
    | cons a rest =>
      have hrecle : (List.drop (s + 1) (a :: rest)).length ≤ fuel := by
        rw [List.length_drop]
        simp only [List.length_cons] at h ⊢
        omega
      rw [chunkerFuel_cons, List.flatten_cons, ih _ s hrecle]
      exact List.take_append_drop _ _

theorem chunkerFuel_mem {α : Type} :
    ∀ (fuel : Nat) (l : List α) (s : Nat) (ch : List α), l.length ≤ fuel →
      ch ∈ chunkerFuel fuel l (s + 1) → ch ≠ [] ∧ ch.length ≤ s + 1 := by
  intro fuel
  induction fuel with
  | zero =>
    intro l s ch h hch
    have hl : l = [] := List.eq_nil_of_length_eq_zero (by omega)
    subst hl
    rw [chunkerFuel_nil] at hch
    cases hch
  | succ fuel ih =>
    intro l s ch h hch
    cases l with
    | nil =>
      rw [chunkerFuel_nil] at hch
      cases hch
    | cons a rest =>
      rw [chunkerFuel_cons] at hch
      have hrecle : (List.drop (s + 1) (a :: rest)).length ≤ fuel := by
        rw [List.length_drop]
        simp only [List.length_cons] at h ⊢
        omega
      rcases List.mem_cons.mp hch with rfl | hch
      · constructor
        · simp
        · rw [List.length_take]
          exact Nat.min_le_left _ _
      · exact ih _ s ch hrecle hch

theorem chunkerFuel_length {α : Type} :
    ∀ (fuel : Nat) (l : List α) (s : Nat), l.length ≤ fuel →
      (chunkerFuel fuel l (s + 1)).length = (l.length + s) / (s + 1) := by
  intro fuel
  induction fuel with
  | zero =>
    intro l s h
    have hl : l = [] := List.eq_nil_of_length_eq_zero (by omega)
    subst hl
    rw [chunkerFuel_nil]
    simp [Nat.div_eq_of_lt (Nat.lt_succ_self s)]
  | succ fuel ih =>
    intro l s h
    cases l with
    | nil =>
      rw [chunkerFuel_nil]
      simp [Nat.div_eq_of_lt (Nat.lt_succ_self s)]
    | cons a rest =>
      have hrecle : (List.drop (s + 1) (a :: rest)).length ≤ fuel := by
        rw [List.length_drop]
        simp only [List.length_cons] at h ⊢
        omega
      rw [chunkerFuel_cons, List.length_cons, ih _ s hrecle, List.length_drop]
      rcases Nat.le_total (a :: rest).length (s + 1) with hle | hle
      · have e1 : (a :: rest).length - (s + 1) = 0 := by omega
        rw [e1]
        have e2 : (0 + s) / (s + 1) = 0 := Nat.div_eq_of_lt (by omega)
        have e3 : ((a :: rest).length + s) / (s + 1) = 1 := by
          apply Nat.div_eq_of_lt_le
          · simp only [List.length_cons]
            omega
          · simp only [List.length_cons] at hle ⊢
            omega
        rw [e2, e3]
      · have e1 : (a :: rest).length - (s + 1) + s = (a :: rest).length - 1 := by
          simp only [List.length_cons] at hle ⊢
          omega
        have e2 : (a :: rest).length + s = ((a :: rest).length - 1) + (s + 1) := by
          simp only [List.length_cons]
          omega
        rw [e1, e2, Nat.add_div_right _ (Nat.succ_pos s)]

theorem chunkerFuel_full {α : Type} :
    ∀ (fuel : Nat) (l : List α) (s i : Nat) (h : i < (chunkerFuel fuel l (s + 1)).length),
      l.length ≤ fuel → i + 1 < (chunkerFuel fuel l (s + 1)).length →
      ((chunkerFuel fuel l (s + 1)).get ⟨i, h⟩).length = s + 1 := by
  intro fuel
  induction fuel with
  | zero =>
    intro l s i h hle hi
    have hl : l = [] := List.eq_nil_of_length_eq_zero (by omega)
    subst hl
    rw [chunkerFuel_nil] at hi
    simp at hi
  | succ fuel ih =>
    intro l s i h hle hi
    cases l with
    | nil =>
      rw [chunkerFuel_nil] at hi
      simp at hi
    | cons a rest =>
      have hrecle : (List.drop (s + 1) (a :: rest)).length ≤ fuel := by
        rw [List.length_drop]
        simp only [List.length_cons] at hle ⊢
        omega
      cases i with
      | zero =>
        show (List.take (s + 1) (a :: rest)).length = s + 1
        rw [List.length_take]
        rw [chunkerFuel_cons, List.length_cons] at hi
        have hrecne : 0 < (chunkerFuel fuel (List.drop (s + 1) (a :: rest)) (s + 1)).length := by
          omega
        have hdropne : List.drop (s + 1) (a :: rest) ≠ [] := by
          intro hnil
          rw [hnil, chunkerFuel_nil] at hrecne
          simp at hrecne
        have hlen : s + 1 < (a :: rest).length := by
          by_contra hcon
          push_neg at hcon
          exact hdropne (List.drop_eq_nil_of_le hcon)
        exact Nat.min_eq_left (Nat.le_of_lt hlen)
      | succ j =>
        rw [chunkerFuel_cons, List.length_cons] at hi
        have hj0 : j < (chunkerFuel fuel (List.drop (s + 1) (a :: rest)) (s + 1)).length := by
          omega
        have hj1 : j + 1 < (chunkerFuel fuel (List.drop (s + 1) (a :: rest)) (s + 1)).length := by
          omega
        exact ih (List.drop (s + 1) (a :: rest)) s j hj0 hrecle hj1

/-! ## C5: chunk partition -/

/-- C5: for capacity `c ≥ 1` and a non-empty list, chunking concatenates back
to the original list (so it partitions it, preserving order), every chunk is
non-empty and holds at most `c` elements, every chunk but the last has
exactly `c` elements, the chunk count is the ceiling of `length / c`, and the
concrete split of ten elements at capacity four has sizes `[4, 4, 2]`. -/
theorem C5_chunk_partition {α : Type} (seq : List α) (c : Nat) (hc : 1 ≤ c)
    (_ht : 1 ≤ seq.length) :
    (chunker seq c).flatten = seq ∧
    (∀ ch ∈ chunker seq c, ch ≠ [] ∧ ch.length ≤ c) ∧
    (∀ i (h : i < (chunker seq c).length), i + 1 < (chunker seq c).length →
      ((chunker seq c).get ⟨i, h⟩).length = c) ∧
    (chunker seq c).length = (seq.length + c - 1) / c ∧
    (chunker seq c).length = ⌈(seq.length : ℝ) / (c : ℝ)⌉₊ ∧
    (chunker (List.range 10) 4).map List.length = [4, 4, 2] := by
  obtain ⟨s, rfl⟩ : ∃ s, c = s + 1 := ⟨c - 1, by omega⟩
  have hcount : (chunker seq (s + 1)).length = (seq.length + (s + 1) - 1) / (s + 1) := by
    show (chunkerFuel seq.length seq (s + 1)).length = _
    rw [chunkerFuel_length seq.length seq s (Nat.le_refl _)]
    congr 1
  refine ⟨chunkerFuel_flatten seq.length seq s (Nat.le_refl _), ?_, ?_, hcount, ?_, by decide⟩
  · intro ch hch
    exact chunkerFuel_mem seq.length seq s ch (Nat.le_refl _) hch
  · intro i h hi
    exact chunkerFuel_full seq.length seq s i h (Nat.le_refl _) hi
  · rw [hcount]
    exact ceil_div_eq_ceil_real_div seq.length (s + 1) (Nat.succ_pos s)

/-- Witness for C5: five elements at capacity two. -/
theorem C5_witness :
    (chunker [10, 20, 30, 40, 50] 2).flatten = [10, 20, 30, 40, 50] ∧
    (∀ ch ∈ chunker [10, 20, 30, 40, 50] 2, ch ≠ [] ∧ ch.length ≤ 2) ∧
    (∀ i (h : i < (chunker [10, 20, 30, 40, 50] 2).length),
      i + 1 < (chunker [10, 20, 30, 40, 50] 2).length →
      ((chunker [10, 20, 30, 40, 50] 2).get ⟨i, h⟩).length = 2) ∧
    (chunker [10, 20, 30, 40, 50] 2).length = ([10, 20, 30, 40, 50].length + 2 - 1) / 2 ∧
    (chunker [10, 20, 30, 40, 50] 2).length =
      ⌈(([10, 20, 30, 40, 50] : List Nat).length : ℝ) / ((2 : Nat) : ℝ)⌉₊ ∧
    (chunker (List.range 10) 4).map List.length = [4, 4, 2] :=
  C5_chunk_partition [10, 20, 30, 40, 50] 2 (by decide) (by decide)

/-! ## Maxima over a chunk -/

theorem foldl_max_init : ∀ (l : List Nat) (a : Nat), a ≤ l.foldl max a
  | [], a => Nat.le_refl a
  | y :: ys, a => Nat.le_trans (Nat.le_max_left a y) (foldl_max_init ys (max a y))

theorem foldl_max_le : ∀ (l : List Nat) (a x : Nat), x ∈ l → x ≤ l.foldl max a := by
  intro l
  induction l with
  | nil => intro a x hx; cases hx
  | cons y ys ih =>
    intro a x hx
    rcases List.mem_cons.mp hx with rfl | hx
    · exact Nat.le_trans (Nat.le_max_right a x) (foldl_max_init ys (max a x))
    · exact ih (max a y) x hx

theorem foldl_max_mem : ∀ (l : List Nat) (a : Nat), l.foldl max a = a ∨ l.foldl max a ∈ l := by
  intro l
  induction l with
  | nil => intro a; exact Or.inl rfl
  | cons y ys ih =>
    intro a
    rcases ih (max a y) with h | h
    · rcases max_choice a y with hm | hm
      · exact Or.inl (by rw [List.foldl_cons, h, hm])
      · refine Or.inr ?_
        rw [List.foldl_cons, h, hm]
        exact List.mem_cons_self y ys
    · refine Or.inr ?_
      rw [List.foldl_cons]
      exact List.mem_cons_of_mem y h

theorem pyMax_ge (l : List Nat) (x : Nat) (hx : x ∈ l) : x ≤ pyMax l := by
  cases l with
  | nil => cases hx
  | cons y ys =>
    rcases List.mem_cons.mp hx with rfl | hx
    · exact foldl_max_init ys x
    · exact foldl_max_le ys y x hx

theorem pyMax_mem (l : List Nat) (hl : l ≠ []) : pyMax l ∈ l := by
  cases l with
  | nil => exact absurd rfl hl
  | cons y ys =>
    show ys.foldl max y ∈ y :: ys
    rcases foldl_max_mem ys y with h | h
    · rw [h]; exact List.mem_cons_self y ys
    · exact List.mem_cons_of_mem y h

/-! ## C6: per-chunk placement -/

/-- C6: in the plan computed for a chunk, the `i`-th image (row-major) is
pasted at offset `(col × cellWidth, row × cellHeight)` with `row = i div cols`
and `col = i mod cols`; the cell width/height dominate every image of the
chunk and are attained by one of them, and the canvas measures
`cols × cellWidth` by `rows × cellHeight`. -/
theorem C6_placement (chunk : List Dim) (i : Nat) (h : i < chunk.length) :
    (planChunk chunk).offsets.get? i =
      some ((i % (planChunk chunk).cols) * (planChunk chunk).cellW,
            (i / (planChunk chunk).cols) * (planChunk chunk).cellH) ∧
    (planChunk chunk).canvasW = (planChunk chunk).cols * (planChunk chunk).cellW ∧
    (planChunk chunk).canvasH = (planChunk chunk).rows * (planChunk chunk).cellH ∧
    (∀ d ∈ chunk, d.width ≤ (planChunk chunk).cellW ∧ d.height ≤ (planChunk chunk).cellH) ∧
    (∃ d ∈ chunk, d.width = (planChunk chunk).cellW) ∧
    (∃ d ∈ chunk, d.height = (planChunk chunk).cellH) := by
  refine ⟨?_, rfl, rfl, ?_, ?_, ?_⟩
  · show ((List.range chunk.length).map
        (fun i => ((i % gridCols chunk.length) * pyMax (chunk.map Dim.width),
                   (i / gridCols chunk.length) * pyMax (chunk.map Dim.height)))).get? i = _
    rw [List.get?_eq_getElem?, List.getElem?_map, List.getElem?_range h]
    rfl
  · intro d hd
    constructor
    · exact pyMax_ge _ _ (List.mem_map_of_mem Dim.width hd)
    · exact pyMax_ge _ _ (List.mem_map_of_mem Dim.height hd)
  · have hne : chunk.map Dim.width ≠ [] := by
      intro hnil
      rw [List.map_eq_nil_iff] at hnil
      subst hnil
      cases h
    obtain ⟨d, hd, hw⟩ := List.mem_map.mp (pyMax_mem _ hne)
    exact ⟨d, hd, hw⟩
  · have hne : chunk.map Dim.height ≠ [] := by
      intro hnil
      rw [List.map_eq_nil_iff] at hnil
      subst hnil
      cases h
    obtain ⟨d, hd, hw⟩ := List.mem_map.mp (pyMax_mem _ hne)
    exact ⟨d, hd, hw⟩

/-- Witness for C6 on a three-image chunk of mixed dimensions, at index 2. -/
theorem C6_witness :
    (planChunk [⟨2, 3⟩, ⟨5, 1⟩, ⟨4, 4⟩]).offsets.get? 2 =
      some ((2 % (planChunk [⟨2, 3⟩, ⟨5, 1⟩, ⟨4, 4⟩]).cols) *
              (planChunk [⟨2, 3⟩, ⟨5, 1⟩, ⟨4, 4⟩]).cellW,
            (2 / (planChunk [⟨2, 3⟩, ⟨5, 1⟩, ⟨4, 4⟩]).cols) *
              (planChunk [⟨2, 3⟩, ⟨5, 1⟩, ⟨4, 4⟩]).cellH) ∧
    (planChunk [⟨2, 3⟩, ⟨5, 1⟩, ⟨4, 4⟩]).canvasW =
      (planChunk [⟨2, 3⟩, ⟨5, 1⟩, ⟨4, 4⟩]).cols * (planChunk [⟨2, 3⟩, ⟨5, 1⟩, ⟨4, 4⟩]).cellW ∧
    (planChunk [⟨2, 3⟩, ⟨5, 1⟩, ⟨4, 4⟩]).canvasH =
      (planChunk [⟨2, 3⟩, ⟨5, 1⟩, ⟨4, 4⟩]).rows * (planChunk [⟨2, 3⟩, ⟨5, 1⟩, ⟨4, 4⟩]).cellH ∧
    (∀ d ∈ ([⟨2, 3⟩, ⟨5, 1⟩, ⟨4, 4⟩] : List Dim),
      d.width ≤ (planChunk [⟨2, 3⟩, ⟨5, 1⟩, ⟨4, 4⟩]).cellW ∧
      d.height ≤ (planChunk [⟨2, 3⟩, ⟨5, 1⟩, ⟨4, 4⟩]).cellH) ∧
    (∃ d ∈ ([⟨2, 3⟩, ⟨5, 1⟩, ⟨4, 4⟩] : List Dim),
      d.width = (planChunk [⟨2, 3⟩, ⟨5, 1⟩, ⟨4, 4⟩]).cellW) ∧
    (∃ d ∈ ([⟨2, 3⟩, ⟨5, 1⟩, ⟨4, 4⟩] : List Dim),
      d.height = (planChunk [⟨2, 3⟩, ⟨5, 1⟩, ⟨4, 4⟩]).cellH) :=
  C6_placement [⟨2, 3⟩, ⟨5, 1⟩, ⟨4, 4⟩] 2 (by decide)

/-! ## C7: empty input -/

/-- C7: when no archive entry name matches the case-insensitive extension
allow-list, the build stops with the `EmptyInput` warning and produces no
document. -/
theorem C7_empty_input (allFiles : List String) (dim : String → Dim) (capacity : Int)
    (h : ∀ f ∈ allFiles, isValidImage f = false) :
    buildDocument allFiles dim capacity = Except.error BuildError.emptyInput := by
  have hfilter : allFiles.filter isValidImage = [] := by
    rw [List.filter_eq_nil_iff]
    intro a ha
    simp [h a ha]
  unfold buildDocument
  rw [hfilter]
  rfl

/-- Witness for C7: an archive holding only non-image entries. -/
theorem C7_witness :
    buildDocument ["readme.txt", "data.csv"] unitDim 4 = Except.error BuildError.emptyInput :=
  C7_empty_input ["readme.txt", "data.csv"] unitDim 4 (by decide)

/-! ## C8: capacity below one -/

/-- C8, counterexample: with a valid image present, capacity `0` ends in an
uncaught `ValueError` (from `range(0, n, 0)`), not in an `InvalidCapacity`
configuration error, and capacity `-1` ends in the generic "No collage pages
were created." warning — the code has no `InvalidCapacity` error at all. -/
theorem C8_counterexample :
    buildDocument ["a.png"] unitDim 0 = Except.error BuildError.valueError ∧
    buildDocument ["a.png"] unitDim (-1) = Except.error BuildError.noPages :=
  ⟨rfl, rfl⟩

/-- C8 (amended): a capacity below `1` never yields a document, but not via an
`InvalidCapacity` configuration error (none exists): the build ends in the
sort `TypeError`, the empty-input warning, the uncaught `ValueError` of
`range(0, n, 0)` when capacity is exactly `0`, or the generic
"no collage pages" warning when capacity is negative.  (In the running app a
capacity below `1` is unreachable: the widget clamps its value to `1..25`.) -/
theorem C8_no_invalid_capacity (allFiles : List String) (dim : String → Dim)
    (capacity : Int) (h : capacity < 1) :
    (∀ pages, buildDocument allFiles dim capacity ≠ Except.ok pages) ∧
    (buildDocument allFiles dim capacity = Except.error BuildError.typeError ∨
     buildDocument allFiles dim capacity = Except.error BuildError.emptyInput ∨
     (capacity = 0 ∧ buildDocument allFiles dim capacity = Except.error BuildError.valueError) ∨
     (capacity < 0 ∧ buildDocument allFiles dim capacity = Except.error BuildError.noPages)) := by
  have key : buildDocument allFiles dim capacity = Except.error BuildError.typeError ∨
      buildDocument allFiles dim capacity = Except.error BuildError.emptyInput ∨
      (capacity = 0 ∧ buildDocument allFiles dim capacity = Except.error BuildError.valueError) ∨
      (capacity < 0 ∧ buildDocument allFiles dim capacity = Except.error BuildError.noPages) := by
    unfold buildDocument
    cases hs : insertSortByKey (allFiles.filter isValidImage) with
    | none => exact Or.inl rfl
    | some sorted =>
      by_cases hemp : sorted.isEmpty
      · right; left
        simp [hemp]
      · by_cases h0 : capacity = 0
        · right; right; left
          refine ⟨h0, ?_⟩
          simp [hemp, h0]
        · have hneg : capacity < 0 := by omega
          right; right; right
          refine ⟨hneg, ?_⟩
          have htn : capacity.toNat = 0 := Int.toNat_of_nonpos (by omega)
          have hch : chunker (sorted.map dim) capacity.toNat = [] := by
            rw [htn]
            cases hmap : sorted.map dim with
            | nil => rfl
            | cons x xs => rfl
          simp [hemp, h0, hch]
  refine ⟨?_, key⟩
  intro pages hcon
  rcases key with k | k | ⟨_, k⟩ | ⟨_, k⟩ <;> rw [k] at hcon <;> cases hcon

/-- Witness for C8 at capacity `0` with one valid image. -/
theorem C8_witness :
    (∀ pages, buildDocument ["a.png"] unitDim 0 ≠ Except.ok pages) ∧
    (buildDocument ["a.png"] unitDim 0 = Except.error BuildError.typeError ∨
     buildDocument ["a.png"] unitDim 0 = Except.error BuildError.emptyInput ∨
     ((0 : Int) = 0 ∧ buildDocument ["a.png"] unitDim 0 = Except.error BuildError.valueError) ∨
     ((0 : Int) < 0 ∧ buildDocument ["a.png"] unitDim 0 = Except.error BuildError.noPages)) :=
  C8_no_invalid_capacity ["a.png"] unitDim 0 (by decide)

/-! ## Key-structure lemmas (C10) -/

theorem dropWhile_head_false {α : Type} (p : α → Bool) :
    ∀ (l : List α) (x : α) (xs : List α), l.dropWhile p = x :: xs → p x = false := by
  intro l
  induction l with
  | nil => intro x xs hx; cases hx
  | cons a as ih =>
    intro x xs hx
    rw [List.dropWhile_cons] at hx
    by_cases hp : p a
    · rw [if_pos hp] at hx
      exact ih x xs hx
    · rw [if_neg hp] at hx
      cases hx
      simpa using hp

theorem dropWhile_length_le {α : Type} (p : α → Bool) :
    ∀ l : List α, (l.dropWhile p).length ≤ l.length := by
  intro l
  induction l with
  | nil => exact Nat.le_refl 0
  | cons a as ih =>
    rw [List.dropWhile_cons]
    by_cases hp : p a
    · rw [if_pos hp]
      exact Nat.le_trans ih (by simp)
    · rw [if_neg hp]

theorem pyIsDigit_mk_nondigit (cs : List Char)
    (hnd : ∀ c ∈ cs, c.isDigit = false) : pyIsDigit (String.mk cs) = false := by
  cases cs with
  | nil => rfl
  | cons t ts =>
    have ht := hnd t (List.mem_cons_self t ts)
    show (!(t :: ts).isEmpty && (t :: ts).all Char.isDigit) = false
    simp [ht]

theorem pyIsDigit_mk_digit (cs : List Char) (hne : cs ≠ [])
    (hdig : ∀ c ∈ cs, c.isDigit = true) : pyIsDigit (String.mk cs) = true := by
  cases cs with
  | nil => exact absurd rfl hne
  | cons t ts =>
    show (!(t :: ts).isEmpty && (t :: ts).all Char.isDigit) = true
    simp only [List.isEmpty_cons, Bool.not_false, Bool.true_and, List.all_eq_true]
    exact hdig

theorem reSplitAux_nilcase (fuel : Nat) (cs : List Char)
    (hd : cs.dropWhile (fun c => !c.isDigit) = []) :
    reSplitAux (fuel + 1) cs = [String.mk (cs.takeWhile (fun c => !c.isDigit))] := by
  unfold reSplitAux
  rw [hd]

theorem reSplitAux_conscase (fuel : Nat) (cs : List Char) (d : Char) (tl : List Char)
    (hd : cs.dropWhile (fun c => !c.isDigit) = d :: tl) :
    reSplitAux (fuel + 1) cs =
      String.mk (cs.takeWhile (fun c => !c.isDigit)) ::
        String.mk ((d :: tl).takeWhile Char.isDigit) ::
          reSplitAux fuel ((d :: tl).dropWhile Char.isDigit) := by
  conv_lhs => rw [reSplitAux]
  rw [hd]

/-- Structure of the split (for any sufficient fuel): the part list has odd
length, and a part is a digit run (`isdigit` holds) exactly at the odd
positions. -/
theorem reSplitAux_spec :
    ∀ (fuel : Nat) (cs : List Char), cs.length < fuel →
      (reSplitAux fuel cs).length % 2 = 1 ∧
      ∀ i (h : i < (reSplitAux fuel cs).length),
        pyIsDigit ((reSplitAux fuel cs).get ⟨i, h⟩) = decide (i % 2 = 1) := by
  intro fuel
  induction fuel with
  | zero => intro cs h; exact absurd h (Nat.not_lt_zero _)
  | succ fuel ih =>
    intro cs hcs
    cases hd : cs.dropWhile (fun c => !c.isDigit) with
    | nil =>
      rw [reSplitAux_nilcase fuel cs hd]
      refine ⟨rfl, ?_⟩
      intro i h
      have hi0 : i = 0 := by
        simp only [List.length_singleton] at h
        omega
      subst hi0
      show pyIsDigit (String.mk (cs.takeWhile (fun c => !c.isDigit))) = decide (0 % 2 = 1)
      rw [pyIsDigit_mk_nondigit]
      · rfl
      · intro c hc
        simpa using List.mem_takeWhile_imp hc
    | cons d tl =>
      rw [reSplitAux_conscase fuel cs d tl hd]
      have hdig : d.isDigit = true := by
        simpa using dropWhile_head_false (fun c => !c.isDigit) cs d tl hd
      have hlen1 : (d :: tl).length ≤ cs.length := by
        rw [← hd]
        exact dropWhile_length_le _ _
      have hrest : ((d :: tl).dropWhile Char.isDigit).length < fuel := by
        rw [List.dropWhile_cons, if_pos hdig]
        have hlr := dropWhile_length_le Char.isDigit tl
        simp only [List.length_cons] at hlen1
        omega
      obtain ⟨ihodd, ihtags⟩ := ih ((d :: tl).dropWhile Char.isDigit) hrest
      constructor
      · simp only [List.length_cons]
        omega
      · intro i h
        rcases i with _ | i
        · show pyIsDigit (String.mk (cs.takeWhile (fun c => !c.isDigit))) = decide (0 % 2 = 1)
          rw [pyIsDigit_mk_nondigit]
          · rfl
          · intro c hc
            simpa using List.mem_takeWhile_imp hc
        · rcases i with _ | j
          · show pyIsDigit (String.mk ((d :: tl).takeWhile Char.isDigit)) = decide (1 % 2 = 1)
            rw [pyIsDigit_mk_digit]
            · rfl
            · rw [List.takeWhile_cons, if_pos hdig]
              simp
            · intro c hc
              exact List.mem_takeWhile_imp hc
          · have hj : j < (reSplitAux fuel ((d :: tl).dropWhile Char.isDigit)).length := by
              simp only [List.length_cons] at h
              omega
            have hmod : (j + 1 + 1) % 2 = j % 2 := by omega
            rw [hmod]
            exact ihtags j hj

/-- Structure of `reSplitDigits`: odd length, digit runs exactly at odd
positions. -/
theorem reSplitDigits_spec (cs : List Char) :
    (reSplitDigits cs).length % 2 = 1 ∧
    ∀ i (h : i < (reSplitDigits cs).length),
      pyIsDigit ((reSplitDigits cs).get ⟨i, h⟩) = decide (i % 2 = 1) :=
  reSplitAux_spec (cs.length + 1) cs (Nat.lt_succ_self _)

theorem alphanumeric_key_length (f : String) :
    (alphanumeric_key f).length = (reSplitDigits (splitext f).1.data).length + 1 := by
  unfold alphanumeric_key
  rw [List.length_append, List.length_map]
  rfl

theorem isStrSeg_tagPart (p : String) : isStrSeg (tagPart p) = !pyIsDigit p := by
  unfold tagPart
  by_cases h : pyIsDigit p <;> simp [h, isStrSeg]

/-- The tag of every key position: `Text` exactly at even positions and at the
final (extension) position. -/
theorem key_tag (f : String) (i : Nat) (hi : i < (alphanumeric_key f).length) :
    isStrSeg ((alphanumeric_key f).get ⟨i, hi⟩) =
      decide (i % 2 = 0 ∨ i = (alphanumeric_key f).length - 1) := by
  obtain ⟨hodd, htags⟩ := reSplitDigits_spec (splitext f).1.data
  have hlen : (alphanumeric_key f).length =
      (reSplitDigits (splitext f).1.data).length + 1 := alphanumeric_key_length f
  rw [List.get_eq_getElem]
  rcases Nat.lt_or_ge i (reSplitDigits (splitext f).1.data).length with hlt | hge
  · have hlt2 : i < ((reSplitDigits (splitext f).1.data).map tagPart).length := by
      rw [List.length_map]
      exact hlt
    have hne : ¬ i = (alphanumeric_key f).length - 1 := by omega
    show isStrSeg ((alphanumeric_key f)[i]) = _
    unfold alphanumeric_key
    rw [List.getElem_append_left hlt2, List.getElem_map, isStrSeg_tagPart]
    have ht := htags i hlt
    rw [List.get_eq_getElem] at ht
    rw [ht]
    have hne2 : ¬ i = (reSplitDigits (splitext f).1.data).length := by omega
    by_cases hpar : i % 2 = 0
    · have h1 : ¬ i % 2 = 1 := by omega
      simp [hpar, h1, hne, hne2]
    · have h1 : i % 2 = 1 := by omega
      simp [hpar, h1, hne, hne2]
  · have hieq : i = (reSplitDigits (splitext f).1.data).length := by omega
    show isStrSeg ((alphanumeric_key f)[i]) = _
    unfold alphanumeric_key
    rw [List.getElem_concat_length _ _ _ (by rw [List.length_map]; exact hieq)]
    have hlast : i = (alphanumeric_key f).length - 1 := by omega
    simp [isStrSeg, hlast]
    omega

/-! ## C10: alternation invariant of the key -/

/-- C10: every key has even total length at least 2 (an odd-length base part
list plus the extension segment); positions are `Text` exactly at even
indices and at the final index (which holds the lowercased extension), so the
key begins and ends with a `Text` segment, no two `Number` segments are
adjacent, and two keys of equal length carry the same tag at every shared
position — a `Number` can face a `Text` only when the base part lists have
different lengths. -/
theorem C10_key_structure (f g : String) (i : Nat)
    (hi : i < (alphanumeric_key f).length)
    (hig : i < (alphanumeric_key g).length)
    (hlen : (alphanumeric_key g).length = (alphanumeric_key f).length) :
    2 ≤ (alphanumeric_key f).length ∧
    (alphanumeric_key f).length % 2 = 0 ∧
    isStrSeg ((alphanumeric_key f).get ⟨i, hi⟩) =
      decide (i % 2 = 0 ∨ i = (alphanumeric_key f).length - 1) ∧
    (alphanumeric_key f).getLast? = some (Segment.str (pyLower (splitext f).2)) ∧
    isStrSeg ((alphanumeric_key g).get ⟨i, hig⟩) =
      isStrSeg ((alphanumeric_key f).get ⟨i, hi⟩) := by
  obtain ⟨hodd, _⟩ := reSplitDigits_spec (splitext f).1.data
  have hklen : (alphanumeric_key f).length =
      (reSplitDigits (splitext f).1.data).length + 1 := alphanumeric_key_length f
  refine ⟨by omega, by omega, key_tag f i hi, ?_, ?_⟩
  · unfold alphanumeric_key
    exact List.getLast?_concat _
  · rw [key_tag g i hig, key_tag f i hi, hlen]

/-- Witness for C10 at `f = "a1.png"`, `g = "b23.gif"`, `i = 1` (a `Number`
position in both keys). -/
theorem C10_witness :
    2 ≤ (alphanumeric_key "a1.png").length ∧
    (alphanumeric_key "a1.png").length % 2 = 0 ∧
    isStrSeg ((alphanumeric_key "a1.png").get ⟨1, by decide⟩) =
      decide (1 % 2 = 0 ∨ 1 = (alphanumeric_key "a1.png").length - 1) ∧
    (alphanumeric_key "a1.png").getLast? =
      some (Segment.str (pyLower (splitext "a1.png").2)) ∧
    isStrSeg ((alphanumeric_key "b23.gif").get ⟨1, by decide⟩) =
      isStrSeg ((alphanumeric_key "a1.png").get ⟨1, by decide⟩) :=
  C10_key_structure "a1.png" "b23.gif" 1 (by decide) (by decide) (by decide)

end CollageApp
